import Mathlib

/-!
# Verified model of the BOJ-Mate test execution harness

Shallow embedding of `src/utils/compiler.ts` (class `CodeRunner`, function
`normalizeOutput`): the output normalizer, the per-case pass/error
classification, the compile/run command construction, and the
`runTests` orchestration loop.  Strings are modelled as `List Char`;
JavaScript's whitespace class is restricted to the ASCII whitespace
characters the harness encounters.
-/

namespace BojMate

/-- Whitespace test used by the JS string methods `trim`/`trimEnd`
(restricted to ASCII whitespace characters). -/
def isWs (c : Char) : Bool :=
  c = ' ' || c = '\t' || c = '\n' || c = '\r' || c = Char.ofNat 11 || c = Char.ofNat 12

/-- JS `String.prototype.trimEnd`: remove the maximal whitespace suffix. -/
def trimEnd : List Char → List Char
  | [] => []
  | c :: rest =>
    match trimEnd rest with
    | [] => if isWs c then [] else [c]
    | r => c :: r

/-- JS `String.prototype.trim` on an already start-trimmed list is `trimEnd`;
`trim` itself removes the maximal whitespace prefix and suffix. -/
def trim (s : List Char) : List Char :=
  trimEnd (s.dropWhile isWs)

/-- JS `String.prototype.split(sep)` for a one-character separator:
splits at every occurrence, keeping empty pieces (`"".split` gives `[""]`). -/
def splitOnChar (sep : Char) : List Char → List (List Char)
  | [] => [[]]
  | c :: rest =>
    if c = sep then [] :: splitOnChar sep rest
    else
      match splitOnChar sep rest with
      | [] => [[c]]
      | l :: ls => (c :: l) :: ls

/-- JS `Array.prototype.join(sep)` for a one-character separator. -/
def joinWith (sep : Char) : List (List Char) → List Char
  | [] => []
  | [l] => l
  | l₁ :: l₂ :: ls => l₁ ++ sep :: joinWith sep (l₂ :: ls)

/-- Function `normalizeOutput` (compiler.ts:205-211): split on `'\n'`, `trimEnd`
each line, rejoin with `'\n'`, then `trim` the whole string. -/
def normalizeOutput (output : List Char) : List Char :=
  trim (joinWith '\n' ((splitOnChar '\n' output).map trimEnd))

example : normalizeOutput "a \nb\t\n\n".data = "a\nb".data := by decide

example : normalizeOutput "  a".data = "a".data := by decide

/-! ## Data model (interfaces in compiler.ts / types/index.ts) -/

/-- Structure `ExecutionResult` (compiler.ts:13-19): what one process execution yields.
`exitCode = none` models JS `null`. -/
structure ExecutionResult where
  stdout : List Char
  stderr : List Char
  exitCode : Option Int
  executionTime : Nat
  timeout : Bool
deriving DecidableEq

/-- Structure `CompileResult` (compiler.ts:7-11). -/
structure CompileResult where
  success : Bool
  error : Option (List Char) := none
  outputPath : Option (List Char) := none
deriving DecidableEq

/-- Structure `TestCase` (types/index.ts). -/
structure TestCase where
  input : List Char
  output : List Char
deriving DecidableEq

/-- Structure `TestResult` (types/index.ts). -/
structure TestResult where
  testCaseIndex : Nat
  input : List Char
  expected : List Char
  actual : List Char
  passed : Bool
  executionTime : Nat
  error : Option (List Char)
deriving DecidableEq

/-! ## Per-case classification (compiler.ts:168-179) -/

/-- The timeout diagnostic `'시간 초과'` (compiler.ts:174). -/
def timeoutMsg : List Char := "시간 초과".data

/-- The runtime-error diagnostic `` `런타임 에러 (exit code: ${code})` ``
(compiler.ts:178); JS renders a `null` exit code as `"null"`. -/
def runtimeErrorMsg (code : Option Int) : List Char :=
  "런타임 에러 (exit code: ".data ++
    (match code with
     | some c => (toString c).data
     | none => "null".data) ++ ")".data

/-- Field `passed` (compiler.ts:168-170): normalized expected equals normalized
actual stdout, no timeout, and exit code exactly `0`. -/
def passedOf (expectedRaw : List Char) (r : ExecutionResult) : Bool :=
  (normalizeOutput expectedRaw == normalizeOutput r.stdout)
    && !r.timeout && (r.exitCode == some 0)

/-- Field `error` classification (compiler.ts:172-179): `timeout`, else non-empty
`stderr` (JS string truthiness), else non-zero exit code, else no error. -/
def errorOf (r : ExecutionResult) : Option (List Char) :=
  if r.timeout then some timeoutMsg
  else if r.stderr ≠ [] then some r.stderr
  else if r.exitCode ≠ some 0 then some (runtimeErrorMsg r.exitCode)
  else none

/-- The `TestResult` pushed for case `i` (compiler.ts:181-189). -/
def mkTestResult (i : Nat) (tc : TestCase) (r : ExecutionResult) : TestResult :=
  { testCaseIndex := i
    input := tc.input
    expected := tc.output
    actual := r.stdout
    passed := passedOf tc.output r
    executionTime := r.executionTime
    error := errorOf r }

/-! ## The `execute` promise resolutions (compiler.ts:64-132)

`execute` resolves its promise from exactly one of two event handlers:
the `close` handler (process ran to completion or was killed by the
timeout timer) and the `error` handler (the process could not be
launched at all).  Each handler is embedded as the record it resolves. -/

/-- The `close`-handler resolution (compiler.ts:109-119): captured stdout and
stderr are `trim`med, the exit code and the timeout flag are reported. -/
def closeOutcome (stdoutRaw stderrRaw : List Char) (code : Option Int)
    (elapsed : Nat) (timedOut : Bool) : ExecutionResult :=
  { stdout := trim stdoutRaw
    stderr := trim stderrRaw
    exitCode := code
    executionTime := elapsed
    timeout := timedOut }

/-- The `error`-handler resolution (compiler.ts:121-130): launch failure. -/
def launchFailOutcome (errMsg : List Char) (elapsed : Nat) : ExecutionResult :=
  { stdout := []
    stderr := "실행 실패: ".data ++ errMsg
    exitCode := none
    executionTime := elapsed
    timeout := false }

/-- Observable actions on the child's standard input stream. -/
inductive StdinAction where
  | write (s : List Char)
  | close
deriving DecidableEq

/-- The stdin interaction of `execute` (compiler.ts:95-99):
`if (input) { proc.stdin.write(input); proc.stdin.end(); }` — a JS string
is truthy exactly when it is non-empty. -/
def stdinActions (input : List Char) : List StdinAction :=
  if input ≠ [] then [StdinAction.write input, StdinAction.close] else []

/-! ## Command construction (compiler.ts:36-43, 74-79) -/

/-- Boolean "is a prefix of" on char lists. -/
def isPrefixL : List Char → List Char → Bool
  | [], _ => true
  | _ :: _, [] => false
  | a :: as, b :: bs => a = b && isPrefixL as bs

/-- JS `String.prototype.replace(pat, rep)` with a string pattern:
replaces only the first occurrence of `pat` (the whole string is returned
unchanged when `pat` does not occur). -/
def replaceFirst (pat rep : List Char) : List Char → List Char
  | [] => if isPrefixL pat [] then rep else []
  | c :: rest =>
    if isPrefixL pat (c :: rest) then rep ++ (c :: rest).drop pat.length
    else c :: replaceFirst pat rep rest

/-- Placeholder substitution used by both `compile` and `execute`:
`.replace('{file}', …).replace('{output}', …).replace('{dir}', …)`. -/
def buildCommand (template filePath outputPath dirPath : List Char) : List Char :=
  replaceFirst "{dir}".data dirPath
    (replaceFirst "{output}".data outputPath
      (replaceFirst "{file}".data filePath template))

/-- Destructuring `const [cmd, ...args] = command.split(' ')` (compiler.ts:42, 79). -/
def cmdAndArgs (command : List Char) : List Char × List (List Char) :=
  match splitOnChar ' ' command with
  | [] => ([], [])
  | c :: a => (c, a)

/-! ## `runTests` orchestration (compiler.ts:134-202)

Process execution is abstracted by an oracle `exec : Nat → TestCase →
ExecutionResult` giving the outcome of `this.execute` for each case.
The loop also produces a trace of observable events: the progress
callback invocations and the per-case process executions, in program
order. -/

/-- Observable events of the test loop. -/
inductive RunEvent where
  | progress (current total : Nat)
  | execCase (index : Nat)
deriving DecidableEq

/-- The loop body (compiler.ts:157-190): for each case, the progress
callback fires with `(i+1, total)`, then the case is executed and its
`TestResult` pushed. -/
def runCases (total : Nat) (exec : Nat → TestCase → ExecutionResult) :
    Nat → List TestCase → List RunEvent × List TestResult
  | _, [] => ([], [])
  | i, tc :: rest =>
    let r := exec i tc
    let tail := runCases total exec (i + 1) rest
    (RunEvent.progress (i + 1) total :: RunEvent.execCase i :: tail.1,
      mkTestResult i tc r :: tail.2)

/-- One element of the compile-failure result list (compiler.ts:145-153). -/
def compileFailResult (i : Nat) (tc : TestCase) (cerr : Option (List Char)) :
    TestResult :=
  { testCaseIndex := i
    input := tc.input
    expected := tc.output
    actual := []
    passed := false
    executionTime := 0
    error := cerr }

/-- The compile-failure branch `testCases.map((tc, i) => …)`
(compiler.ts:145-153), with explicit index threading. -/
def compileFailResults (cerr : Option (List Char)) :
    Nat → List TestCase → List TestResult
  | _, [] => []
  | i, tc :: rest => compileFailResult i tc cerr :: compileFailResults cerr (i + 1) rest

/-- Function `runTests` (compiler.ts:134-202): short-circuit on compile failure,
otherwise run every case in order. -/
def runTests (cr : CompileResult) (exec : Nat → TestCase → ExecutionResult)
    (testCases : List TestCase) : List TestResult :=
  if cr.success then (runCases testCases.length exec 0 testCases).2
  else compileFailResults cr.error 0 testCases

/-- The event trace of `runTests`: empty on the compile-failure branch
(no process is spawned, no progress reported), the loop trace otherwise. -/
def runTestsEvents (cr : CompileResult) (exec : Nat → TestCase → ExecutionResult)
    (testCases : List TestCase) : List RunEvent :=
  if cr.success then (runCases testCases.length exec 0 testCases).1
  else []

/-! ## Unfolding equations -/

theorem trimEnd_cons (c : Char) (rest : List Char) :
    trimEnd (c :: rest) =
      match trimEnd rest with
      | [] => if isWs c then [] else [c]
      | r => c :: r := rfl

theorem splitOnChar_cons (sep c : Char) (rest : List Char) :
    splitOnChar sep (c :: rest) =
      if c = sep then [] :: splitOnChar sep rest
      else
        match splitOnChar sep rest with
        | [] => [[c]]
        | l :: ls => (c :: l) :: ls := rfl

/-! ## Splitter / joiner lemmas -/

theorem splitOnChar_ne_nil (sep : Char) (s : List Char) :
    splitOnChar sep s ≠ [] := by
  cases s with
  | nil => simp [splitOnChar]
  | cons c rest =>
    rw [splitOnChar_cons]
    by_cases h : c = sep
    · simp [h]
    · rw [if_neg h]
      cases hs : splitOnChar sep rest <;> simp

theorem joinWith_splitOnChar (sep : Char) (s : List Char) :
    joinWith sep (splitOnChar sep s) = s := by
  induction s with
  | nil => rfl
  | cons c rest ih =>
    rw [splitOnChar_cons]
    by_cases h : c = sep
    · rw [if_pos h]
      cases hs : splitOnChar sep rest with
      | nil => exact absurd hs (splitOnChar_ne_nil sep rest)
      | cons l ls =>
        rw [hs] at ih
        simpa [joinWith, h] using ih
    · rw [if_neg h]
      cases hs : splitOnChar sep rest with
      | nil => exact absurd hs (splitOnChar_ne_nil sep rest)
      | cons l ls =>
        rw [hs] at ih
        cases ls with
        | nil => simpa [joinWith] using ih
        | cons m ms => simpa [joinWith] using ih

theorem not_sep_mem_splitOnChar (sep : Char) (s : List Char) :
    ∀ l ∈ splitOnChar sep s, sep ∉ l := by
  induction s with
  | nil =>
    intro l hl
    simp only [splitOnChar, List.mem_singleton] at hl
    simp [hl]
  | cons c rest ih =>
    intro l hl
    rw [splitOnChar_cons] at hl
    by_cases h : c = sep
    · rw [if_pos h] at hl
      rcases List.mem_cons.mp hl with h1 | h1
      · simp [h1]
      · exact ih l h1
    · rw [if_neg h] at hl
      cases hs : splitOnChar sep rest with
      | nil => exact absurd hs (splitOnChar_ne_nil sep rest)
      | cons l₀ ls =>
        rw [hs] at hl
        rcases List.mem_cons.mp hl with h1 | h1
        · subst h1
          intro hmem
          rcases List.mem_cons.mp hmem with h2 | h2
          · exact h h2.symm
          · exact ih l₀ (by rw [hs]; exact List.mem_cons_self _ _) h2
        · exact ih l (by rw [hs]; exact List.mem_cons_of_mem _ h1)

/-! ## `trimEnd` lemmas -/

theorem mem_of_mem_trimEnd {c : Char} {l : List Char}
    (h : c ∈ trimEnd l) : c ∈ l := by
  induction l with
  | nil => simp [trimEnd] at h
  | cons a rest ih =>
    rw [trimEnd_cons] at h
    cases hr : trimEnd rest with
    | nil =>
      rw [hr] at h
      by_cases w : isWs a
      · simp [w] at h
      · simp [w] at h
        simp [h]
    | cons d t =>
      rw [hr] at h
      rcases List.mem_cons.mp h with h1 | h1
      · simp [h1]
      · exact List.mem_cons_of_mem _ (ih (by rw [hr]; exact h1))

theorem trimEnd_idem (l : List Char) : trimEnd (trimEnd l) = trimEnd l := by
  induction l with
  | nil => rfl
  | cons c rest ih =>
    rw [trimEnd_cons]
    cases hr : trimEnd rest with
    | nil =>
      by_cases w : isWs c
      · simp [w, trimEnd]
      · simp [w, trimEnd]
    | cons d t =>
      rw [hr] at ih
      simp only
      rw [trimEnd_cons, ih]

/-- If `trimEnd` fixes `c :: l` then it fixes `l` as well. -/
theorem trimEnd_fix_of_cons {c : Char} {l : List Char}
    (h : trimEnd (c :: l) = c :: l) : trimEnd l = l := by
  rw [trimEnd_cons] at h
  cases hr : trimEnd l with
  | nil =>
    rw [hr] at h
    by_cases w : isWs c
    · simp [w] at h
    · simp only [w, Bool.false_eq_true, if_neg] at h
      have hl : l = [] := ((List.cons.injEq _ _ _ _).mp h.symm).2
      rw [hl]
  | cons d t =>
    rw [hr] at h
    have h2 : d :: t = l := ((List.cons.injEq _ _ _ _).mp h).2
    exact h2

/-- Head preservation: a non-empty `trimEnd l` has the same head as `l`. -/
theorem trimEnd_head_eq (l : List Char) :
    trimEnd l = [] ∨ (trimEnd l).head? = l.head? := by
  cases l with
  | nil => exact Or.inl rfl
  | cons c rest =>
    rw [trimEnd_cons]
    cases hr : trimEnd rest with
    | nil =>
      by_cases w : isWs c
      · simp [w]
      · simp [w]
    | cons d t => simp

/-! ## Lines-wellformedness: every line free of trailing whitespace -/

/-- A position is bad when a non-newline whitespace character sits at the
end of its line (end of string, or just before a `'\n'`). -/
def badAt (c : Char) (rest : List Char) : Bool :=
  isWs c && !(c == '\n') &&
    (match rest with
     | [] => true
     | d :: _ => d == '\n')

/-- Every line of the string is free of trailing whitespace. -/
def linesOk : List Char → Bool
  | [] => true
  | c :: rest => !(badAt c rest) && linesOk rest

theorem linesOk_cons (c : Char) (rest : List Char) :
    linesOk (c :: rest) = (!(badAt c rest) && linesOk rest) := rfl

theorem linesOk_single {l : List Char} (hnl : '\n' ∉ l)
    (hfix : trimEnd l = l) : linesOk l = true := by
  induction l with
  | nil => rfl
  | cons c rest ih =>
    have hfix' : trimEnd rest = rest := trimEnd_fix_of_cons hfix
    have hnl' : '\n' ∉ rest := fun hm => hnl (List.mem_cons_of_mem _ hm)
    rw [linesOk_cons, ih hnl' hfix', Bool.and_true, Bool.not_eq_true']
    cases rest with
    | nil =>
      rw [trimEnd_cons] at hfix
      by_cases w : isWs c
      · simp [w, trimEnd] at hfix
      · simp [badAt, w]
    | cons d t =>
      have hd : ¬ (d = '\n') := by
        intro hdeq
        exact hnl (by rw [hdeq] at *; exact List.mem_cons_of_mem _ (List.mem_cons_self _ _))
      simp [badAt, hd]

theorem linesOk_append_nl {l : List Char} (w : List Char) (hnl : '\n' ∉ l)
    (hfix : trimEnd l = l) (hw : linesOk w = true) :
    linesOk (l ++ '\n' :: w) = true := by
  induction l with
  | nil => simpa [linesOk_cons, badAt] using hw
  | cons c l' ih =>
    have hfix' : trimEnd l' = l' := trimEnd_fix_of_cons hfix
    have hnl' : '\n' ∉ l' := fun hm => hnl (List.mem_cons_of_mem _ hm)
    rw [List.cons_append, linesOk_cons, ih hnl' hfix', Bool.and_true,
      Bool.not_eq_true']
    cases l' with
    | nil =>
      rw [trimEnd_cons] at hfix
      by_cases hws : isWs c
      · simp [hws, trimEnd] at hfix
      · simp [badAt, hws]
    | cons d t =>
      have hd : ¬ (d = '\n') := by
        intro hdeq
        exact hnl (by rw [hdeq] at *; exact List.mem_cons_of_mem _ (List.mem_cons_self _ _))
      simp [badAt, hd]

theorem joinWith_linesOk (parts : List (List Char))
    (h : ∀ l ∈ parts, '\n' ∉ l ∧ trimEnd l = l) :
    linesOk (joinWith '\n' parts) = true := by
  induction parts with
  | nil => rfl
  | cons l rest ih =>
    cases rest with
    | nil =>
      have := h l (List.mem_cons_self _ _)
      exact linesOk_single this.1 this.2
    | cons m ms =>
      have hl := h l (List.mem_cons_self _ _)
      have hrest : linesOk (joinWith '\n' (m :: ms)) = true :=
        ih (fun x hx => h x (List.mem_cons_of_mem _ hx))
      simpa [joinWith] using linesOk_append_nl _ hl.1 hl.2 hrest

theorem linesOk_dropWhile {s : List Char} (h : linesOk s = true) :
    linesOk (s.dropWhile isWs) = true := by
  induction s with
  | nil => exact h
  | cons c rest ih =>
    rw [linesOk_cons, Bool.and_eq_true] at h
    by_cases w : isWs c
    · rw [List.dropWhile_cons_of_pos w]
      exact ih h.2
    · rw [List.dropWhile_cons_of_neg (by simpa using w)]
      rw [linesOk_cons, Bool.and_eq_true]
      exact h

theorem linesOk_trimEnd {s : List Char} (h : linesOk s = true) :
    linesOk (trimEnd s) = true := by
  induction s with
  | nil => exact h
  | cons c rest ih =>
    rw [linesOk_cons, Bool.and_eq_true] at h
    rw [trimEnd_cons]
    cases hr : trimEnd rest with
    | nil =>
      by_cases w : isWs c
      · simp [w, linesOk]
      · simp [w, linesOk, badAt]
    | cons d t =>
      have hok : linesOk (d :: t) = true := by rw [← hr]; exact ih h.2
      simp only
      rw [linesOk_cons, Bool.and_eq_true]
      refine ⟨?_, hok⟩
      rcases trimEnd_head_eq rest with he | he
      · rw [he] at hr; exact absurd hr (by simp)
      · rw [hr] at he
        cases rest with
        | nil => simp [trimEnd] at hr
        | cons e r' =>
          have hde : d = e := by simpa using he
          subst hde
          have := h.1
          simpa [badAt] using this

theorem splitOnChar_head_nil {sep : Char} {s : List Char} {ls : List (List Char)}
    (h : splitOnChar sep s = [] :: ls) : s = [] ∨ s.head? = some sep := by
  cases s with
  | nil => exact Or.inl rfl
  | cons c rest =>
    rw [splitOnChar_cons] at h
    by_cases hc : c = sep
    · exact Or.inr (by simp [hc])
    · rw [if_neg hc] at h
      cases hs : splitOnChar sep rest with
      | nil => exact absurd hs (splitOnChar_ne_nil sep rest)
      | cons l₀ ls₀ =>
        rw [hs] at h
        exact absurd ((List.cons.injEq _ _ _ _).mp h).1 (by simp)

theorem map_trimEnd_splitOnChar {s : List Char} (h : linesOk s = true) :
    (splitOnChar '\n' s).map trimEnd = splitOnChar '\n' s := by
  induction s with
  | nil => simp [splitOnChar, trimEnd]
  | cons c rest ih =>
    rw [linesOk_cons, Bool.and_eq_true] at h
    have ihr := ih h.2
    rw [splitOnChar_cons]
    by_cases hc : c = '\n'
    · rw [if_pos hc]
      simpa [trimEnd] using ihr
    · rw [if_neg hc]
      cases hs : splitOnChar '\n' rest with
      | nil => exact absurd hs (splitOnChar_ne_nil '\n' rest)
      | cons l ls =>
        rw [hs] at ihr
        simp only [List.map_cons] at ihr ⊢
        have hl : trimEnd l = l := ((List.cons.injEq _ _ _ _).mp ihr).1
        have hls : ls.map trimEnd = ls := ((List.cons.injEq _ _ _ _).mp ihr).2
        rw [hls]
        refine (List.cons.injEq _ _ _ _).mpr ⟨?_, rfl⟩
        cases l with
        | nil =>
          rcases splitOnChar_head_nil hs with hre | hre
          · subst hre
            have hb := h.1
            simp [badAt, hc] at hb
            simp [trimEnd, hb]
          · cases rest with
            | nil => simp at hre
            | cons d r' =>
              have hd : d = '\n' := by simpa using hre
              have hb := h.1
              simp [badAt, hc, hd] at hb
              simp [trimEnd, hb]
        | cons e l' =>
          rw [trimEnd_cons, hl]

/-! ## `trim` lemmas -/

theorem length_dropWhile_le (p : Char → Bool) (l : List Char) :
    (l.dropWhile p).length ≤ l.length := by
  induction l with
  | nil => simp
  | cons c rest ih =>
    by_cases hp : p c
    · rw [List.dropWhile_cons_of_pos hp]
      exact Nat.le_succ_of_le ih
    · rw [List.dropWhile_cons_of_neg (by simpa using hp)]

theorem not_ws_head_of_dropWhile_fix {c : Char} {t : List Char}
    (h : List.dropWhile isWs (c :: t) = c :: t) : ¬ isWs c := by
  intro w
  rw [List.dropWhile_cons_of_pos w] at h
  have := length_dropWhile_le isWs t
  rw [h] at this
  simp only [List.length_cons] at this
  omega

theorem trim_idem (s : List Char) : trim (trim s) = trim s := by
  unfold trim
  have hu : List.dropWhile isWs (List.dropWhile isWs s) = List.dropWhile isWs s :=
    List.dropWhile_idempotent _ _
  set u := List.dropWhile isWs s with hu_def
  have h2 : List.dropWhile isWs (trimEnd u) = trimEnd u := by
    cases htu : trimEnd u with
    | nil => rfl
    | cons e t' =>
      rcases trimEnd_head_eq u with he | he
      · rw [he] at htu; exact absurd htu (by simp)
      · rw [htu] at he
        cases hu_cases : u with
        | nil => rw [hu_cases, trimEnd] at htu; exact absurd htu (by simp)
        | cons c t =>
          have hec : e = c := by rw [hu_cases] at he; simpa using he
          subst hec
          have : ¬ isWs e := not_ws_head_of_dropWhile_fix (hu_cases ▸ hu)
          rw [List.dropWhile_cons_of_neg (by simpa using this)]
  rw [h2, trimEnd_idem]

/-! ## Idempotence of `normalizeOutput` -/

theorem linesOk_normalizeOutput (s : List Char) :
    linesOk (normalizeOutput s) = true := by
  have hparts : ∀ l ∈ (splitOnChar '\n' s).map trimEnd, '\n' ∉ l ∧ trimEnd l = l := by
    intro l hl
    rcases List.mem_map.mp hl with ⟨l₀, hl₀, rfl⟩
    exact ⟨fun hm => not_sep_mem_splitOnChar '\n' s l₀ hl₀ (mem_of_mem_trimEnd hm),
      trimEnd_idem l₀⟩
  have hz : linesOk (joinWith '\n' ((splitOnChar '\n' s).map trimEnd)) = true :=
    joinWith_linesOk _ hparts
  unfold normalizeOutput trim
  exact linesOk_trimEnd (linesOk_dropWhile hz)

/-- C6: the normalization function is idempotent. -/
theorem c6_normalize_idem (s : List Char) :
    normalizeOutput (normalizeOutput s) = normalizeOutput s := by
  conv_lhs => rw [normalizeOutput]
  rw [map_trimEnd_splitOnChar (linesOk_normalizeOutput s), joinWith_splitOnChar]
  exact trim_idem _

/-! ## `trimEnd` as reverse-dropWhile-reverse -/

theorem trimEnd_append_single (l : List Char) (c : Char) :
    trimEnd (l ++ [c]) = if isWs c then trimEnd l else l ++ [c] := by
  induction l with
  | nil => by_cases w : isWs c <;> simp [w, trimEnd]
  | cons a l ih =>
    rw [List.cons_append, trimEnd_cons, ih]
    by_cases w : isWs c
    · rw [if_pos w, if_pos w, ← trimEnd_cons]
    · rw [if_neg w, if_neg w]
      cases hlc : l ++ [c] with
      | nil => exact absurd hlc (by simp)
      | cons x xs => simp

theorem trimEnd_eq_rdrop (l : List Char) :
    trimEnd l = (l.reverse.dropWhile isWs).reverse := by
  induction l using List.reverseRecOn with
  | nil => rfl
  | append_singleton l c ih =>
    rw [trimEnd_append_single]
    simp only [List.reverse_append, List.reverse_cons, List.reverse_nil,
      List.nil_append, List.singleton_append]
    by_cases w : isWs c
    · rw [if_pos w, List.dropWhile_cons_of_pos w, ih]
    · rw [if_neg w, List.dropWhile_cons_of_neg (by simpa using w)]
      simp

/-! ## Spec-side formulations of the normalizer (for comparison) -/

/-- Whole-text trimming as JS `trim` is ordinarily described: remove the
maximal run of leading whitespace characters and the maximal run of
trailing whitespace characters. -/
def stripEndsWs (s : List Char) : List Char :=
  ((s.dropWhile isWs).reverse.dropWhile isWs).reverse

/-- The normalizer as the amended description words it: split on line
boundaries, strip trailing whitespace from each line, rejoin, then strip
all leading and trailing whitespace of the whole text. -/
def normalizeSpecAmended (s : List Char) : List Char :=
  stripEndsWs (joinWith '\n' ((splitOnChar '\n' s).map trimEnd))

/-- Remove the leading and trailing blank lines of a line list. -/
def dropBlankLines (parts : List (List Char)) : List (List Char) :=
  ((parts.dropWhile List.isEmpty).reverse.dropWhile List.isEmpty).reverse

/-- The normalizer as the claim words it: after the per-line pass, only
leading and trailing blank *lines* are stripped from the whole text, so
leading whitespace on the first non-blank line would remain. -/
def normalizeSpecClaimed (s : List Char) : List Char :=
  joinWith '\n' (dropBlankLines ((splitOnChar '\n' s).map trimEnd))

theorem normalizeOutput_eq_amended (s : List Char) :
    normalizeOutput s = normalizeSpecAmended s := by
  unfold normalizeOutput normalizeSpecAmended stripEndsWs trim
  rw [trimEnd_eq_rdrop]

/-! ## `runTests` helper lemmas -/

theorem runCases_snd_length (total : Nat) (exec : Nat → TestCase → ExecutionResult) :
    ∀ (tcs : List TestCase) (i : Nat),
      (runCases total exec i tcs).2.length = tcs.length := by
  intro tcs
  induction tcs with
  | nil => intro i; rfl
  | cons tc rest ih => intro i; simp [runCases, ih (i + 1)]

theorem compileFailResults_length (cerr : Option (List Char)) :
    ∀ (tcs : List TestCase) (i : Nat),
      (compileFailResults cerr i tcs).length = tcs.length := by
  intro tcs
  induction tcs with
  | nil => intro i; rfl
  | cons tc rest ih => intro i; simp [compileFailResults, ih (i + 1)]

theorem runCases_snd_get (total : Nat) (exec : Nat → TestCase → ExecutionResult) :
    ∀ (tcs : List TestCase) (i k : Nat) (tc : TestCase),
      tcs[k]? = some tc →
      (runCases total exec i tcs).2[k]? =
        some (mkTestResult (i + k) tc (exec (i + k) tc)) := by
  intro tcs
  induction tcs with
  | nil => intro i k tc h; simp at h
  | cons tc0 rest ih =>
    intro i k tc h
    cases k with
    | zero =>
      simp only [List.getElem?_cons_zero, Option.some.injEq] at h
      subst h
      simp [runCases]
    | succ k' =>
      simp only [List.getElem?_cons_succ] at h
      have := ih (i + 1) k' tc h
      simp only [runCases, List.getElem?_cons_succ]
      rw [this]
      have harith : i + 1 + k' = i + (k' + 1) := by omega
      rw [harith]

theorem compileFailResults_get (cerr : Option (List Char)) :
    ∀ (tcs : List TestCase) (i k : Nat) (tc : TestCase),
      tcs[k]? = some tc →
      (compileFailResults cerr i tcs)[k]? = some (compileFailResult (i + k) tc cerr) := by
  intro tcs
  induction tcs with
  | nil => intro i k tc h; simp at h
  | cons tc0 rest ih =>
    intro i k tc h
    cases k with
    | zero =>
      simp only [List.getElem?_cons_zero, Option.some.injEq] at h
      subst h
      simp [compileFailResults]
    | succ k' =>
      simp only [List.getElem?_cons_succ] at h
      have := ih (i + 1) k' tc h
      simp only [compileFailResults, List.getElem?_cons_succ]
      rw [this]
      have harith : i + 1 + k' = i + (k' + 1) := by omega
      rw [harith]

theorem compileFailResults_mem (cerr : Option (List Char)) :
    ∀ (tcs : List TestCase) (i : Nat) (res : TestResult),
      res ∈ compileFailResults cerr i tcs →
      res.passed = false ∧ res.actual = [] ∧ res.error = cerr := by
  intro tcs
  induction tcs with
  | nil => intro i res h; simp [compileFailResults] at h
  | cons tc0 rest ih =>
    intro i res h
    rcases List.mem_cons.mp h with h1 | h1
    · subst h1; exact ⟨rfl, rfl, rfl⟩
    · exact ih (i + 1) res h1

theorem runCases_fst_length (total : Nat) (exec : Nat → TestCase → ExecutionResult) :
    ∀ (tcs : List TestCase) (i : Nat),
      (runCases total exec i tcs).1.length = 2 * tcs.length := by
  intro tcs
  induction tcs with
  | nil => intro i; rfl
  | cons tc rest ih =>
    intro i
    simp only [runCases, List.length_cons, ih (i + 1), List.length_cons]
    omega

theorem runCases_fst_get (total : Nat) (exec : Nat → TestCase → ExecutionResult) :
    ∀ (tcs : List TestCase) (i k : Nat), k < tcs.length →
      (runCases total exec i tcs).1[2 * k]? =
          some (RunEvent.progress (i + k + 1) total) ∧
        (runCases total exec i tcs).1[2 * k + 1]? =
          some (RunEvent.execCase (i + k)) := by
  intro tcs
  induction tcs with
  | nil => intro i k h; simp at h
  | cons tc0 rest ih =>
    intro i k h
    cases k with
    | zero => simp [runCases]
    | succ k' =>
      have hk' : k' < rest.length := by simpa using h
      have := ih (i + 1) k' hk'
      have h2 : 2 * (k' + 1) = 2 * k' + 1 + 1 := by omega
      rw [h2]
      simp only [runCases, List.getElem?_cons_succ]
      have harith : i + 1 + k' = i + (k' + 1) := by omega
      rw [← harith]
      exact this

theorem runCases_count_progress (total : Nat) (exec : Nat → TestCase → ExecutionResult) :
    ∀ (tcs : List TestCase) (i c : Nat),
      (runCases total exec i tcs).1.count (RunEvent.progress c total) =
        if i < c ∧ c ≤ i + tcs.length then 1 else 0 := by
  intro tcs
  induction tcs with
  | nil =>
    intro i c
    simp only [List.length_nil]
    rw [if_neg (by omega)]
    rfl
  | cons tc0 rest ih =>
    intro i c
    simp only [runCases, List.count_cons, ih (i + 1) c]
    simp [beq_iff_eq, RunEvent.progress.injEq, List.length_cons]
    split_ifs <;> omega

/-! ## `passed` characterization -/

theorem passedOf_eq_true_iff (expectedRaw : List Char) (r : ExecutionResult) :
    passedOf expectedRaw r = true ↔
      (normalizeOutput r.stdout = normalizeOutput expectedRaw ∧
        r.exitCode = some 0 ∧ r.timeout = false) := by
  simp only [passedOf, Bool.and_eq_true, beq_iff_eq, Bool.not_eq_true']
  constructor
  · rintro ⟨⟨h1, h2⟩, h3⟩
    exact ⟨h1.symm, h3, h2⟩
  · rintro ⟨h1, h2, h3⟩
    exact ⟨⟨h1.symm, h3⟩, h2⟩

/-! ## Concrete fixtures used in witnesses and counterexamples -/

/-- An echo-style test case: input `"5"`, expected output `"5"`. -/
def tcEcho : TestCase := { input := ['5'], output := ['5'] }

/-- An oracle whose process echoes its input and exits 0. -/
def execOk : Nat → TestCase → ExecutionResult := fun _ tc =>
  { stdout := tc.input, stderr := [], exitCode := some 0
    executionTime := 1, timeout := false }

/-- An oracle whose process is killed by the 5000 ms deadline. -/
def execTimeout : Nat → TestCase → ExecutionResult := fun _ _ =>
  { stdout := [], stderr := [], exitCode := none
    executionTime := 5000, timeout := true }

/-- A successful compile. -/
def crOk : CompileResult := { success := true }

/-- A failed compile with diagnostic `"syntax error"`. -/
def crFail : CompileResult := { success := false, error := some "syntax error".data }

/-! ## Claim theorems -/

/-- C1: for every test case executed after a successful compile, the
`TestResult`'s `passed` field is `true` iff the normalized actual stdout
equals the normalized expected output, the process exited with code `0`,
and the execution did not time out; in particular a timed-out case is
never passed. -/
theorem c1_passed_iff (cr : CompileResult) (exec : Nat → TestCase → ExecutionResult)
    (tcs : List TestCase) (k : Nat) (tc : TestCase) (res : TestResult)
    (hcr : cr.success = true) (htc : tcs[k]? = some tc)
    (hres : (runTests cr exec tcs)[k]? = some res) :
    (res.passed = true ↔
      (normalizeOutput (exec k tc).stdout = normalizeOutput tc.output ∧
        (exec k tc).exitCode = some 0 ∧ (exec k tc).timeout = false)) ∧
    ((exec k tc).timeout = true → res.passed = false) := by
  have hget := runCases_snd_get tcs.length exec tcs 0 k tc htc
  rw [runTests, if_pos hcr, hget] at hres
  simp only [Nat.zero_add] at hres
  have hres' : res = mkTestResult k tc (exec k tc) := (Option.some.injEq _ _).mp hres.symm
  subst hres'
  constructor
  · exact passedOf_eq_true_iff tc.output (exec k tc)
  · intro htmo
    rw [show (mkTestResult k tc (exec k tc)).passed = passedOf tc.output (exec k tc) from rfl]
    rw [Bool.eq_false_iff]
    intro hp
    have := (passedOf_eq_true_iff tc.output (exec k tc)).mp hp
    rw [htmo] at this
    exact absurd this.2.2 (by simp)

theorem c1_passed_iff_witness :
    (((mkTestResult 0 tcEcho (execOk 0 tcEcho)).passed = true ↔
      (normalizeOutput (execOk 0 tcEcho).stdout = normalizeOutput tcEcho.output ∧
        (execOk 0 tcEcho).exitCode = some 0 ∧ (execOk 0 tcEcho).timeout = false)) ∧
    ((execOk 0 tcEcho).timeout = true → (mkTestResult 0 tcEcho (execOk 0 tcEcho)).passed = false)) :=
  c1_passed_iff crOk execOk [tcEcho] 0 tcEcho _ (by decide) (by decide) (by decide)

/-- C2: if compilation fails, `runTests` returns one `TestResult` per
`TestCase`, each failed with empty `actual` and the shared compile
diagnostic, independently of the execution oracle, and no process
execution (and no progress report) is ever observed. -/
theorem c2_compile_failure (cr : CompileResult)
    (exec exec' : Nat → TestCase → ExecutionResult) (tcs : List TestCase)
    (hcr : cr.success = false) :
    (runTests cr exec tcs).length = tcs.length ∧
    (∀ res ∈ runTests cr exec tcs,
      res.passed = false ∧ res.actual = [] ∧ res.error = cr.error) ∧
    runTests cr exec tcs = runTests cr exec' tcs ∧
    runTestsEvents cr exec tcs = [] := by
  have hb : cr.success ≠ true := by simp [hcr]
  refine ⟨?_, ?_, ?_, ?_⟩
  · rw [runTests, if_neg hb]
    exact compileFailResults_length cr.error tcs 0
  · intro res hres
    rw [runTests, if_neg hb] at hres
    exact compileFailResults_mem cr.error tcs 0 res hres
  · rw [runTests, if_neg hb, runTests, if_neg hb]
  · rw [runTestsEvents, if_neg hb]

theorem c2_compile_failure_witness :
    (runTests crFail execOk [tcEcho]).length = [tcEcho].length ∧
    (∀ res ∈ runTests crFail execOk [tcEcho],
      res.passed = false ∧ res.actual = [] ∧ res.error = crFail.error) ∧
    runTests crFail execOk [tcEcho] = runTests crFail execTimeout [tcEcho] ∧
    runTestsEvents crFail execOk [tcEcho] = [] :=
  c2_compile_failure crFail execOk execTimeout [tcEcho] (by decide)

theorem runTests_length (cr : CompileResult)
    (exec : Nat → TestCase → ExecutionResult) (tcs : List TestCase) :
    (runTests cr exec tcs).length = tcs.length := by
  rw [runTests]
  by_cases hcr : cr.success = true
  · rw [if_pos hcr]
    exact runCases_snd_length tcs.length exec tcs 0
  · rw [if_neg hcr]
    exact compileFailResults_length cr.error tcs 0

/-- C3: `runTests` always returns exactly one result per test case, on
both branches, and the results carry indices `0..n-1` in input order. -/
theorem c3_length_and_indices (cr : CompileResult)
    (exec : Nat → TestCase → ExecutionResult) (tcs : List TestCase) :
    (runTests cr exec tcs).length = tcs.length ∧
    (∀ (k : Nat) (res : TestResult), (runTests cr exec tcs)[k]? = some res → res.testCaseIndex = k) := by
  constructor
  · exact runTests_length cr exec tcs
  · intro k res hres
    have hk : k < (runTests cr exec tcs).length := by
      by_contra hk
      rw [List.getElem?_eq_none (by omega)] at hres
      exact Option.noConfusion hres
    have hklen : k < tcs.length := by
      have := runTests_length cr exec tcs
      omega
    have htc : tcs[k]? = some tcs[k] := List.getElem?_eq_getElem hklen
    rw [runTests] at hres
    by_cases hcr : cr.success = true
    · rw [if_pos hcr, runCases_snd_get tcs.length exec tcs 0 k _ htc] at hres
      have : res = mkTestResult (0 + k) tcs[k] (exec (0 + k) tcs[k]) :=
        (Option.some.injEq _ _).mp hres.symm
      subst this
      simp [mkTestResult]
    · rw [if_neg hcr, compileFailResults_get cr.error tcs 0 k _ htc] at hres
      have : res = compileFailResult (0 + k) tcs[k] cr.error :=
        (Option.some.injEq _ _).mp hres.symm
      subst this
      simp [compileFailResult]

theorem c3_length_and_indices_witness :
    (runTests crOk execOk [tcEcho]).length = [tcEcho].length ∧
    (∀ (k : Nat) (res : TestResult), (runTests crOk execOk [tcEcho])[k]? = some res → res.testCaseIndex = k) :=
  c3_length_and_indices crOk execOk [tcEcho]

/-- An outcome with both a non-zero exit code and non-empty stderr. -/
def rStderrExit : ExecutionResult :=
  { stdout := []
    stderr := ['e']
    exitCode := some 1
    executionTime := 0
    timeout := false }

/-- An outcome with stderr `"boom"` and exit code 1. -/
def rBoom : ExecutionResult :=
  { stdout := []
    stderr := "boom".data
    exitCode := some 1
    executionTime := 0
    timeout := false }

/-- C4 is false on the code: a case with non-zero exit code AND non-empty
stderr reports the stderr text, not the runtime-error description — in
`errorOf` the stderr branch precedes the exit-code branch. -/
theorem c4_counterexample :
    errorOf rStderrExit = some ['e'] ∧
    errorOf rStderrExit ≠ some (runtimeErrorMsg (some 1)) := by
  refine ⟨rfl, ?_⟩
  intro h
  rw [show errorOf rStderrExit = some ['e'] from rfl] at h
  exact absurd ((Option.some.injEq _ _).mp h) (by decide)

/-- C4 (amended): the classification precedence is timeout > non-empty
stderr > non-zero exit code: a timed-out case reports the timeout message
even if stderr is non-empty or the exit code non-zero, and a case with
both a non-zero exit code and non-empty stderr reports the stderr text
rather than the runtime-error description. -/
theorem c4_error_precedence (r : ExecutionResult) :
    (r.timeout = true → errorOf r = some timeoutMsg) ∧
    (r.timeout = false → r.stderr ≠ [] → errorOf r = some r.stderr) ∧
    (r.timeout = false → r.stderr = [] → r.exitCode ≠ some 0 →
      errorOf r = some (runtimeErrorMsg r.exitCode)) ∧
    (r.timeout = false → r.stderr = [] → r.exitCode = some 0 →
      errorOf r = none) := by
  refine ⟨?_, ?_, ?_, ?_⟩
  · intro h1
    simp [errorOf, h1]
  · intro h1 h2
    simp [errorOf, h1, h2]
  · intro h1 h2 h3
    simp [errorOf, h1, h2, h3]
  · intro h1 h2 h3
    simp [errorOf, h1, h2, h3]

theorem c4_error_precedence_witness :
    errorOf rBoom = some rBoom.stderr :=
  (c4_error_precedence rBoom).2.1 rfl (by decide)

/-- C5 is false on the code: the final `trim` strips ALL leading
whitespace, including leading whitespace on the first non-blank line,
not only leading/trailing blank lines — on `"  a"` the code yields
`"a"` while the claimed normalization keeps `"  a"`. -/
theorem c5_counterexample :
    normalizeOutput "  a".data = "a".data ∧
    normalizeSpecClaimed "  a".data = "  a".data ∧
    normalizeOutput "  a".data ≠ normalizeSpecClaimed "  a".data := by
  refine ⟨by decide, by decide, by decide⟩

/-- C5 (amended): normalize splits on line boundaries, strips trailing
whitespace from each line, rejoins, and then strips all leading and
trailing whitespace of the whole text (so leading whitespace on the
first non-blank line is removed too); in particular
`normalize("a \nb\t\n\n") = "a\nb"`. -/
theorem c5_normalize_amended :
    (∀ s : List Char, normalizeOutput s = normalizeSpecAmended s) ∧
    normalizeOutput "a \nb\t\n\n".data = "a\nb".data :=
  ⟨normalizeOutput_eq_amended, by decide⟩

/-- C7: a launch failure is reported with a stderr describing the
failure, an absent exit code and `timedOut = false`, and so is
distinguishable from a timeout, whose outcome has `timedOut = true`. -/
theorem c7_launch_failure (errMsg : List Char) (elapsed : Nat) :
    (launchFailOutcome errMsg elapsed).stderr = "실행 실패: ".data ++ errMsg ∧
    (launchFailOutcome errMsg elapsed).exitCode = none ∧
    (launchFailOutcome errMsg elapsed).timeout = false ∧
    (∀ (so se : List Char) (c : Option Int) (e : Nat),
      (closeOutcome so se c e true).timeout = true ∧
      launchFailOutcome errMsg elapsed ≠ closeOutcome so se c e true) := by
  refine ⟨rfl, rfl, rfl, ?_⟩
  intro so se c e
  refine ⟨rfl, ?_⟩
  intro h
  have := congrArg ExecutionResult.timeout h
  simp [launchFailOutcome, closeOutcome] at this

/-- C8 is false on the code: for the empty input string the
`if (input)` guard is falsy, so nothing is written to stdin and the
stream is never closed. -/
theorem c8_counterexample :
    stdinActions [] = [] ∧ StdinAction.close ∉ stdinActions [] := by
  refine ⟨rfl, ?_⟩
  intro h
  simp [stdinActions] at h

/-- C8 (amended): for every non-empty input string the executor writes
the input to the process's stdin and then closes the stream; for the
empty input string it neither writes nor closes. -/
theorem c8_stdin_amended (input : List Char) (h : input ≠ []) :
    stdinActions input = [StdinAction.write input, StdinAction.close] ∧
    stdinActions [] = [] :=
  ⟨by simp [stdinActions, h], rfl⟩

theorem c8_stdin_amended_witness :
    stdinActions ['5'] = [StdinAction.write ['5'], StdinAction.close] ∧
    stdinActions [] = [] :=
  c8_stdin_amended ['5'] (by decide)

/-- C9 is false on the code: the progress callback fires BEFORE the case
executes, not after — with one test case the trace is
`[progress 1 1, execCase 0]`, and there are no positions `j < k` placing
the execution before the progress report. -/
theorem c9_counterexample :
    (runTestsEvents crOk execOk [tcEcho])[0]? = some (RunEvent.progress 1 1) ∧
    (runTestsEvents crOk execOk [tcEcho])[1]? = some (RunEvent.execCase 0) ∧
    ¬ ∃ j k : Nat, j < k ∧
      (runTestsEvents crOk execOk [tcEcho])[j]? = some (RunEvent.execCase 0) ∧
      (runTestsEvents crOk execOk [tcEcho])[k]? = some (RunEvent.progress 1 1) := by
  have htr : runTestsEvents crOk execOk [tcEcho] =
      [RunEvent.progress 1 1, RunEvent.execCase 0] := rfl
  refine ⟨rfl, rfl, ?_⟩
  rintro ⟨j, k, hjk, hj, hk⟩
  rw [htr] at hj hk
  cases j with
  | zero => simp at hj
  | succ j' =>
    cases j' with
    | zero =>
      cases k with
      | zero => omega
      | succ k' =>
        cases k' with
        | zero => omega
        | succ k'' => simp at hk
    | succ j'' => simp at hj

/-- C9 (amended): with a successful compile the progress callback is
invoked exactly once per test case with `(caseIndex+1, totalCases)`,
immediately BEFORE that case executes. -/
theorem c9_progress_events (cr : CompileResult)
    (exec : Nat → TestCase → ExecutionResult) (tcs : List TestCase) (k : Nat)
    (hcr : cr.success = true) (hk : k < tcs.length) :
    (runTestsEvents cr exec tcs)[2 * k]? =
      some (RunEvent.progress (k + 1) tcs.length) ∧
    (runTestsEvents cr exec tcs)[2 * k + 1]? = some (RunEvent.execCase k) ∧
    (runTestsEvents cr exec tcs).count (RunEvent.progress (k + 1) tcs.length) = 1 := by
  rw [runTestsEvents, if_pos hcr]
  have hget := runCases_fst_get tcs.length exec tcs 0 k hk
  simp only [Nat.zero_add] at hget
  refine ⟨hget.1, hget.2, ?_⟩
  rw [runCases_count_progress tcs.length exec tcs 0 (k + 1), if_pos (by omega)]

theorem c9_progress_events_witness :
    (runTestsEvents crOk execOk [tcEcho])[2 * 0]? =
      some (RunEvent.progress (0 + 1) [tcEcho].length) ∧
    (runTestsEvents crOk execOk [tcEcho])[2 * 0 + 1]? =
      some (RunEvent.execCase 0) ∧
    (runTestsEvents crOk execOk [tcEcho]).count
      (RunEvent.progress (0 + 1) [tcEcho].length) = 1 :=
  c9_progress_events crOk execOk [tcEcho] 0 rfl (by decide)

/-! ## Command construction lemmas (C10) -/

theorem replaceFirst_cons (pat rep : List Char) (c : Char) (rest : List Char) :
    replaceFirst pat rep (c :: rest) =
      if isPrefixL pat (c :: rest) then rep ++ (c :: rest).drop pat.length
      else c :: replaceFirst pat rep rest := rfl

theorem isPrefixL_append (pat zs : List Char) :
    isPrefixL pat (pat ++ zs) = true := by
  induction pat with
  | nil => rfl
  | cons p ps ih => simp [isPrefixL, ih]

theorem replaceFirst_first_occurrence (pat rep : List Char) :
    ∀ xs ys : List Char,
      (∀ i, i < xs.length → isPrefixL pat ((xs ++ (pat ++ ys)).drop i) = false) →
      replaceFirst pat rep (xs ++ (pat ++ ys)) = xs ++ (rep ++ ys) := by
  intro xs
  induction xs with
  | nil =>
    intro ys h
    simp only [List.nil_append]
    cases hpy : pat ++ ys with
    | nil =>
      have h2 := List.append_eq_nil.mp hpy
      rw [h2.1, h2.2]
      simp [replaceFirst, isPrefixL]
    | cons c rest =>
      rw [replaceFirst_cons,
        if_pos (by rw [← hpy]; exact isPrefixL_append pat ys),
        ← hpy, List.drop_left]
  | cons a xs ih =>
    intro ys h
    have h0 := h 0 (by simp)
    simp only [List.drop_zero, List.cons_append] at h0
    have hih := ih ys (fun i hi => by
      have := h (i + 1) (by simp; omega)
      simpa [List.cons_append, List.drop_succ_cons] using this)
    rw [List.cons_append, replaceFirst_cons, if_neg (by simp [h0]), hih,
      List.cons_append]

theorem cmdAndArgs_fst (command : List Char) :
    (cmdAndArgs command).1 = command.takeWhile (fun c => !(c == ' ')) := by
  induction command with
  | nil => rfl
  | cons c rest ih =>
    unfold cmdAndArgs
    rw [splitOnChar_cons]
    by_cases hc : c = ' '
    · rw [if_pos hc]
      simp [List.takeWhile_cons, hc]
    · rw [if_neg hc]
      cases hs : splitOnChar ' ' rest with
      | nil => exact absurd hs (splitOnChar_ne_nil ' ' rest)
      | cons l ls =>
        unfold cmdAndArgs at ih
        rw [hs] at ih
        simp only at ih
        simp [List.takeWhile_cons, hc, ← ih]

/-- C10: each placeholder is substituted only at its first occurrence,
the substituted command is split at every single space, and the
executable is the portion of the command up to the first space — for a
path containing a space the remainder leaks into the argument list. -/
theorem c10_command_substitution :
    (∀ pat rep xs ys : List Char,
      (∀ i, i < xs.length → isPrefixL pat ((xs ++ (pat ++ ys)).drop i) = false) →
      replaceFirst pat rep (xs ++ (pat ++ ys)) = xs ++ (rep ++ ys)) ∧
    (∀ command : List Char,
      (cmdAndArgs command).1 = command.takeWhile (fun c => !(c == ' '))) ∧
    cmdAndArgs (buildCommand "python3 {file}".data "my dir/sol.py".data [] []) =
      ("python3".data, ["my".data, "dir/sol.py".data]) :=
  ⟨fun pat rep xs ys h => replaceFirst_first_occurrence pat rep xs ys h,
    cmdAndArgs_fst, by decide⟩

theorem c10_command_substitution_witness :
    replaceFirst "{file}".data "a.py".data
        ("run ".data ++ ("{file}".data ++ " {file}".data)) =
      "run ".data ++ ("a.py".data ++ " {file}".data) :=
  c10_command_substitution.1 "{file}".data "a.py".data "run ".data
    " {file}".data (by decide)

end BojMate
